import Mathlib

/-!
# Verification of the stock-correlation network construction

Shallow embedding of the correlation-threshold network pipeline:
price table → log-returns → Pearson correlation matrix → threshold graph
→ structural metrics (mean degree, largest-component fraction S), together
with the control-flow of the loading / fetching scripts.

Matrix entries are modelled as `Option ℚ`: `some c` is an ordinary float
value, `none` is IEEE NaN (as produced by pandas for a zero-variance
column).  Every comparison `NaN >= θ` is false in Python, which the
function `corrGe` mirrors.
-/

namespace StockNet

/-- A correlation-matrix entry: `some c` an ordinary value, `none` = NaN. -/
abbrev Entry := Option ℚ

/-- A symbol-by-symbol correlation matrix over `N` stock symbols. -/
abbrev CorrMatrix (N : ℕ) := Fin N → Fin N → Entry

/-- The Python comparison `correlation >= theta`: false when the entry is
NaN, otherwise the ordinary `≥` on values. -/
def corrGe (c : Entry) (θ : ℚ) : Bool :=
  match c with
  | none => false
  | some x => decide (θ ≤ x)

/-- The graph object built by the construction scripts: the node set added by
`add_nodes_from(corr_matrix.columns)` and the edge set accumulated by the
double loop (stored as ordered pairs `(i, j)` with `i < j`, exactly as the
loop enumerates them). -/
structure FinGraph (N : ℕ) where
  nodes : Finset (Fin N)
  edges : Finset (Fin N × Fin N)

/-- `G = nx.Graph(); G.add_nodes_from(columns); for i, for j in (i+1..N):
if corr.iloc[i, j] >= theta: G.add_edge(i, j)` — the threshold-graph
construction shared by `network_construction.py` and `parameter.py`. -/
def buildGraph {N : ℕ} (corr : CorrMatrix N) (θ : ℚ) : FinGraph N :=
  { nodes := Finset.univ
    edges := Finset.univ.filter
      (fun p : Fin N × Fin N => p.1 < p.2 ∧ corrGe (corr p.1 p.2) θ = true) }

/-- Undirected adjacency of an `nx.Graph` after the construction loop:
`i` and `j` are adjacent when the loop added the edge in either
orientation. -/
def FinGraph.adj {N : ℕ} (G : FinGraph N) (i j : Fin N) : Bool :=
  decide ((i, j) ∈ G.edges ∨ (j, i) ∈ G.edges)

/-- `G.number_of_nodes()`. -/
def FinGraph.numNodes {N : ℕ} (G : FinGraph N) : ℕ := G.nodes.card

/-- `G.number_of_edges()`. -/
def FinGraph.numEdges {N : ℕ} (G : FinGraph N) : ℕ := G.edges.card

/-- `G.degree(i)`: the number of neighbours of `i`. -/
def FinGraph.degree {N : ℕ} (G : FinGraph N) (i : Fin N) : ℕ :=
  (Finset.univ.filter (fun j => G.adj i j = true)).card

lemma corrGe_mono {c : Entry} {θ₁ θ₂ : ℚ} (h : θ₁ ≤ θ₂)
    (hc : corrGe c θ₂ = true) : corrGe c θ₁ = true := by
  cases c with
  | none => simp [corrGe] at hc
  | some x =>
    simp only [corrGe, decide_eq_true_eq] at hc ⊢
    exact le_trans h hc

lemma mem_buildGraph_edges {N : ℕ} (corr : CorrMatrix N) (θ : ℚ)
    (p : Fin N × Fin N) :
    p ∈ (buildGraph corr θ).edges ↔
      p.1 < p.2 ∧ corrGe (corr p.1 p.2) θ = true := by
  simp [buildGraph]

lemma buildGraph_adj_iff {N : ℕ} (corr : CorrMatrix N) (θ : ℚ) (i j : Fin N) :
    (buildGraph corr θ).adj i j = true ↔
      (i < j ∧ corrGe (corr i j) θ = true) ∨
        (j < i ∧ corrGe (corr j i) θ = true) := by
  simp [FinGraph.adj, mem_buildGraph_edges]

/-- **C1.** For every symmetric correlation matrix and every threshold θ the
constructed graph has all symbols as nodes, its adjacency is undirected
(symmetric, with no self-loops), and a pair is an edge exactly when the two
symbols are distinct and their correlation satisfies the inclusive
comparison `>= θ` (for a defined entry `c` this is literally `θ ≤ c`). -/
theorem buildGraph_edge_characterisation {N : ℕ} (corr : CorrMatrix N)
    (θ : ℚ) (hsymm : ∀ i j, corr i j = corr j i) :
    (buildGraph corr θ).nodes = Finset.univ ∧
    (∀ i j, (buildGraph corr θ).adj i j = (buildGraph corr θ).adj j i) ∧
    (∀ i, (buildGraph corr θ).adj i i = false) ∧
    (∀ i j, (buildGraph corr θ).adj i j = true ↔
        i ≠ j ∧ corrGe (corr i j) θ = true) ∧
    (∀ i j c, corr i j = some c →
        ((buildGraph corr θ).adj i j = true ↔ i ≠ j ∧ θ ≤ c)) := by
  have hchar : ∀ i j, (buildGraph corr θ).adj i j = true ↔
      i ≠ j ∧ corrGe (corr i j) θ = true := by
    intro i j
    rw [buildGraph_adj_iff]
    constructor
    · rintro (⟨hlt, hc⟩ | ⟨hlt, hc⟩)
      · exact ⟨ne_of_lt hlt, hc⟩
      · exact ⟨(ne_of_lt hlt).symm, by rw [hsymm i j]; exact hc⟩
    · rintro ⟨hne, hc⟩
      rcases lt_or_gt_of_ne hne with hlt | hgt
      · exact Or.inl ⟨hlt, hc⟩
      · exact Or.inr ⟨hgt, by rw [← hsymm i j]; exact hc⟩
  refine ⟨rfl, ?_, ?_, hchar, ?_⟩
  · intro i j
    by_cases h : (buildGraph corr θ).adj i j = true
    · have h2 : (buildGraph corr θ).adj j i = true := by
        rw [hchar] at h ⊢
        exact ⟨h.1.symm, by rw [hsymm j i]; exact h.2⟩
      rw [h, h2]
    · have h2 : ¬ (buildGraph corr θ).adj j i = true := by
        rw [hchar] at h ⊢
        intro hcon
        exact h ⟨hcon.1.symm, by rw [hsymm i j]; exact hcon.2⟩
      simp only [Bool.not_eq_true] at h h2
      rw [h, h2]
  · intro i
    have := hchar i i
    simp only [ne_eq, not_true_eq_false, false_and, iff_false,
      Bool.not_eq_true] at this
    exact this
  · intro i j c hc
    rw [hchar, hc]
    simp [corrGe]

/-- Concrete 2×2 symmetric correlation matrix used by witnesses. -/
def corr2 : CorrMatrix 2 := fun i j =>
  if i = j then some 1 else some 0

/-- Witness for C1: the characterisation applied at a concrete symmetric
matrix and θ = 0. -/
theorem buildGraph_edge_characterisation_witness :
    (∀ i j, corr2 i j = corr2 j i) ∧
    ((buildGraph corr2 0).nodes = Finset.univ ∧
     (∀ i j, (buildGraph corr2 0).adj i j =
        (buildGraph corr2 0).adj j i) ∧
     (∀ i, (buildGraph corr2 0).adj i i = false) ∧
     (∀ i j, (buildGraph corr2 0).adj i j = true ↔
        i ≠ j ∧ corrGe (corr2 i j) 0 = true) ∧
     (∀ i j c, corr2 i j = some c →
        ((buildGraph corr2 0).adj i j = true ↔ i ≠ j ∧ (0 : ℚ) ≤ c))) :=
  ⟨by decide, buildGraph_edge_characterisation corr2 0 (by decide)⟩

/-- **C2.** Monotonic thinning: raising the threshold can only remove edges —
for θ₁ ≤ θ₂ every edge of the graph built at θ₂ is an edge of the graph
built at θ₁. -/
theorem buildGraph_edges_antitone {N : ℕ} (corr : CorrMatrix N)
    {θ₁ θ₂ : ℚ} (h : θ₁ ≤ θ₂) :
    (buildGraph corr θ₂).edges ⊆ (buildGraph corr θ₁).edges := by
  intro p hp
  rw [mem_buildGraph_edges] at hp ⊢
  exact ⟨hp.1, corrGe_mono h hp.2⟩

/-- Witness for C2: thinning at concrete thresholds 0 ≤ 1. -/
theorem buildGraph_edges_antitone_witness :
    (0 : ℚ) ≤ 1 ∧
      (buildGraph corr2 1).edges ⊆ (buildGraph corr2 0).edges :=
  ⟨by decide, buildGraph_edges_antitone corr2 (by decide)⟩

/-- `avg_k = (G.number_of_edges() * 2) / G.number_of_nodes() if nodes > 0
else 0` — the guarded mean-degree computation of `parameter.py`. -/
def avg_k {N : ℕ} (G : FinGraph N) : ℚ :=
  if G.numNodes = 0 then 0 else ((G.numEdges : ℚ) * 2) / (G.numNodes : ℚ)

lemma buildGraph_numNodes {N : ℕ} (corr : CorrMatrix N) (θ : ℚ) :
    (buildGraph corr θ).numNodes = N := by
  simp [buildGraph, FinGraph.numNodes]

lemma sum_degree_eq_twice_numEdges {N : ℕ} (corr : CorrMatrix N) (θ : ℚ) :
    (∑ i, (buildGraph corr θ).degree i) = 2 * (buildGraph corr θ).numEdges := by
  classical
  have hsplit : ∀ i j : Fin N,
      (if (buildGraph corr θ).adj i j = true then (1 : ℕ) else 0) =
        (if i < j ∧ corrGe (corr i j) θ = true then (1 : ℕ) else 0) +
        (if j < i ∧ corrGe (corr j i) θ = true then (1 : ℕ) else 0) := by
    intro i j
    by_cases h1 : i < j ∧ corrGe (corr i j) θ = true
    · have h2 : ¬ (j < i ∧ corrGe (corr j i) θ = true) :=
        fun h2 => absurd (h1.1.trans h2.1) (lt_irrefl i)
      simp [buildGraph_adj_iff, h1, h2]
    · by_cases h2 : j < i ∧ corrGe (corr j i) θ = true
      · simp [buildGraph_adj_iff, h1, h2]
      · simp [buildGraph_adj_iff, h1, h2]
  have hdeg : ∀ i, (buildGraph corr θ).degree i =
      ∑ j, (if (buildGraph corr θ).adj i j = true then (1 : ℕ) else 0) := by
    intro i
    rw [FinGraph.degree, Finset.card_filter]
  have hedges : (buildGraph corr θ).numEdges =
      ∑ i, ∑ j, (if i < j ∧ corrGe (corr i j) θ = true then (1 : ℕ) else 0) := by
    have := Finset.card_filter
      (fun p : Fin N × Fin N => p.1 < p.2 ∧ corrGe (corr p.1 p.2) θ = true)
      Finset.univ
    rw [FinGraph.numEdges, buildGraph, this, ← Finset.univ_product_univ,
      Finset.sum_product]
  calc (∑ i, (buildGraph corr θ).degree i)
      = ∑ i, ∑ j, (if (buildGraph corr θ).adj i j = true then (1 : ℕ) else 0) := by
        exact Finset.sum_congr rfl (fun i _ => hdeg i)
    _ = (∑ i, ∑ j, (if i < j ∧ corrGe (corr i j) θ = true then (1 : ℕ) else 0)) +
        (∑ i, ∑ j, (if j < i ∧ corrGe (corr j i) θ = true then (1 : ℕ) else 0)) := by
        rw [← Finset.sum_add_distrib]
        refine Finset.sum_congr rfl (fun i _ => ?_)
        rw [← Finset.sum_add_distrib]
        exact Finset.sum_congr rfl (fun j _ => hsplit i j)
    _ = (∑ i, ∑ j, (if i < j ∧ corrGe (corr i j) θ = true then (1 : ℕ) else 0)) +
        (∑ i, ∑ j, (if i < j ∧ corrGe (corr i j) θ = true then (1 : ℕ) else 0)) := by
        rw [Finset.sum_comm
          (f := fun i j => (if j < i ∧ corrGe (corr j i) θ = true then (1 : ℕ) else 0))]
    _ = 2 * (buildGraph corr θ).numEdges := by
        rw [hedges]; ring

/-- **C3.** The reported mean degree: the constructed graph has all `N`
symbols as nodes, the sum of its node degrees is `2·|E|` (handshake), and
the guarded `avg_k` equals `2·|E|/N` when `N > 0` and `0` when `N = 0`. -/
theorem avg_k_spec {N : ℕ} (corr : CorrMatrix N) (θ : ℚ) :
    (buildGraph corr θ).numNodes = N ∧
    (∑ i, (buildGraph corr θ).degree i) = 2 * (buildGraph corr θ).numEdges ∧
    avg_k (buildGraph corr θ) =
      if N = 0 then 0 else 2 * ((buildGraph corr θ).numEdges : ℚ) / (N : ℚ) := by
  refine ⟨buildGraph_numNodes corr θ, sum_degree_eq_twice_numEdges corr θ, ?_⟩
  rw [avg_k, buildGraph_numNodes]
  by_cases h : N = 0
  · simp [h]
  · simp only [h, if_false]
    ring

/-- `max_edges = (N * (N - 1)) / 2` from `graph_analysis.py` (float
arithmetic, so the subtraction is over ℚ, not truncated). -/
def max_edges (n : ℕ) : ℚ := ((n : ℚ) * ((n : ℚ) - 1)) / 2

/-- Python float division: raises `ZeroDivisionError` when the divisor is
zero; modelled as `none`. -/
def pyDiv (a b : ℚ) : Option ℚ := if b = 0 then none else some (a / b)

/-- `p = M / max_edges` from `graph_analysis.py`, with no guard on the
divisor. -/
def gnp_p (n m : ℕ) : Option ℚ := pyDiv (m : ℚ) (max_edges n)

lemma max_edges_eq_zero_iff (n : ℕ) : max_edges n = 0 ↔ n ≤ 1 := by
  rw [max_edges, div_eq_zero_iff, mul_eq_zero]
  constructor
  · rintro ((h | h) | h)
    · have := Nat.cast_eq_zero.mp h
      omega
    · have h1 : (n : ℚ) = 1 := by linarith [sub_eq_zero.mp h]
      have := Nat.cast_eq_one.mp h1
      omega
    · exact absurd h (by norm_num)
  · intro h
    interval_cases n
    · exact Or.inl (Or.inl (by norm_num))
    · exact Or.inl (Or.inr (by norm_num))

/-- **C10.** The random-graph comparison step computes `p = M / max_edges`
with `max_edges = N·(N−1)/2` and no guard: it fails with a division by zero
exactly when the loaded graph has `N ≤ 1` nodes, and produces a number for
every `N ≥ 2`. -/
theorem gnp_p_fails_iff_le_one (n m : ℕ) : gnp_p n m = none ↔ n ≤ 1 := by
  rw [gnp_p, pyDiv]
  by_cases h : max_edges n = 0
  · simp [h, (max_edges_eq_zero_iff n).mp h]
  · have hne : ¬ n ≤ 1 := fun hle => h ((max_edges_eq_zero_iff n).mpr hle)
    simp [h, hne]

/-- One breadth-first expansion step: add every node adjacent to the
current set. -/
def adjStep {N : ℕ} (adj : Fin N → Fin N → Bool) (s : Finset (Fin N)) :
    Finset (Fin N) :=
  s ∪ Finset.univ.filter (fun j => ∃ i ∈ s, adj i j = true)

/-- The connected component of `v` (as computed by
`nx.connected_components`): saturate the expansion step, `N` iterations
sufficing on `N` nodes. -/
def reachSet {N : ℕ} (adj : Fin N → Fin N → Bool) (v : Fin N) :
    Finset (Fin N) :=
  (adjStep adj)^[N] {v}

/-- Reachability in the graph with boolean adjacency `adj`: the
reflexive-transitive closure of adjacency, i.e. textbook connectivity. -/
def GReach {N : ℕ} (adj : Fin N → Fin N → Bool) (v u : Fin N) : Prop :=
  Relation.ReflTransGen (fun a b => adj a b = true) v u

lemma subset_adjStep {N : ℕ} (adj : Fin N → Fin N → Bool)
    (s : Finset (Fin N)) : s ⊆ adjStep adj s :=
  Finset.subset_union_left

lemma adjStep_mono {N : ℕ} {adj adj' : Fin N → Fin N → Bool}
    (hadj : ∀ i j, adj i j = true → adj' i j = true)
    {s t : Finset (Fin N)} (hst : s ⊆ t) :
    adjStep adj s ⊆ adjStep adj' t := by
  intro x hx
  rw [adjStep, Finset.mem_union] at hx ⊢
  rcases hx with hx | hx
  · exact Or.inl (hst hx)
  · rw [Finset.mem_filter] at hx
    obtain ⟨-, i, hi, hadj_i⟩ := hx
    exact Or.inr (Finset.mem_filter.mpr
      ⟨Finset.mem_univ x, i, hst hi, hadj i x hadj_i⟩)

lemma iterate_adjStep_mono {N : ℕ} {adj adj' : Fin N → Fin N → Bool}
    (hadj : ∀ i j, adj i j = true → adj' i j = true) (v : Fin N) :
    ∀ k, (adjStep adj)^[k] {v} ⊆ (adjStep adj')^[k] {v} := by
  intro k
  induction k with
  | zero => exact fun x hx => hx
  | succ k ih =>
    rw [Function.iterate_succ_apply', Function.iterate_succ_apply']
    exact adjStep_mono hadj ih

lemma reachSet_mono {N : ℕ} {adj adj' : Fin N → Fin N → Bool}
    (hadj : ∀ i j, adj i j = true → adj' i j = true) (v : Fin N) :
    reachSet adj v ⊆ reachSet adj' v :=
  iterate_adjStep_mono hadj v N

lemma mem_iterate_adjStep_self {N : ℕ} (adj : Fin N → Fin N → Bool)
    (v : Fin N) : ∀ k, v ∈ (adjStep adj)^[k] {v} := by
  intro k
  induction k with
  | zero => exact Finset.mem_singleton_self v
  | succ k ih =>
    rw [Function.iterate_succ_apply']
    exact subset_adjStep adj _ ih

lemma iterate_adjStep_sound {N : ℕ} (adj : Fin N → Fin N → Bool)
    (v : Fin N) : ∀ k u, u ∈ (adjStep adj)^[k] {v} → GReach adj v u := by
  intro k
  induction k with
  | zero =>
    intro u hu
    rw [Function.iterate_zero_apply, Finset.mem_singleton] at hu
    exact hu ▸ Relation.ReflTransGen.refl
  | succ k ih =>
    intro u hu
    rw [Function.iterate_succ_apply', adjStep, Finset.mem_union] at hu
    rcases hu with hu | hu
    · exact ih u hu
    · rw [Finset.mem_filter] at hu
      obtain ⟨-, i, hi, hadj_i⟩ := hu
      exact (ih i hi).tail hadj_i

lemma adjStep_fixed_closed {N : ℕ} {adj : Fin N → Fin N → Bool}
    {s : Finset (Fin N)} (hfix : adjStep adj s = s) {a b : Fin N}
    (ha : a ∈ s) (hab : adj a b = true) : b ∈ s := by
  rw [← hfix, adjStep, Finset.mem_union]
  exact Or.inr (Finset.mem_filter.mpr ⟨Finset.mem_univ b, a, ha, hab⟩)

lemma mem_of_fixed_of_reach {N : ℕ} {adj : Fin N → Fin N → Bool}
    {s : Finset (Fin N)} (hfix : adjStep adj s = s) {v u : Fin N}
    (hv : v ∈ s) (h : GReach adj v u) : u ∈ s := by
  induction h with
  | refl => exact hv
  | tail _ hstep ih => exact adjStep_fixed_closed hfix ih hstep

lemma adjStep_reachSet_fixed {N : ℕ} (adj : Fin N → Fin N → Bool)
    (v : Fin N) : adjStep adj (reachSet adj v) = reachSet adj v := by
  have key : ∀ k, adjStep adj ((adjStep adj)^[k] {v}) = (adjStep adj)^[k] {v} ∨
      k + 1 ≤ ((adjStep adj)^[k] {v}).card := by
    intro k
    induction k with
    | zero =>
      exact Or.inr (by simp)
    | succ k ih =>
      rcases ih with hfix | hcard
      · left
        rw [Function.iterate_succ_apply', hfix, hfix]
      · by_cases hfix : adjStep adj ((adjStep adj)^[k] {v}) = (adjStep adj)^[k] {v}
        · left
          rw [Function.iterate_succ_apply', hfix, hfix]
        · right
          rw [Function.iterate_succ_apply']
          have hss : (adjStep adj)^[k] {v} ⊂ adjStep adj ((adjStep adj)^[k] {v}) :=
            (Finset.ssubset_iff_of_subset (subset_adjStep adj _)).mpr
              (by
                by_contra hcon
                push_neg at hcon
                exact hfix (Finset.Subset.antisymm hcon (subset_adjStep adj _)))
          have := Finset.card_lt_card hss
          omega
  rcases key N with hfix | hcard
  · exact hfix
  · exfalso
    have hle : ((adjStep adj)^[N] {v}).card ≤ N := by
      have := Finset.card_le_univ ((adjStep adj)^[N] {v})
      simpa using this
    omega

lemma mem_reachSet_iff {N : ℕ} (adj : Fin N → Fin N → Bool) (v u : Fin N) :
    u ∈ reachSet adj v ↔ GReach adj v u := by
  constructor
  · exact iterate_adjStep_sound adj v N u
  · exact mem_of_fixed_of_reach (adjStep_reachSet_fixed adj v)
      (mem_iterate_adjStep_self adj v N)

/-- Boolean adjacency of the graph built at threshold θ. -/
def graphAdj {N : ℕ} (corr : CorrMatrix N) (θ : ℚ) :
    Fin N → Fin N → Bool :=
  fun i j => (buildGraph corr θ).adj i j

/-- Size of the connected component containing `v` in the graph built at
threshold θ. -/
def compSize {N : ℕ} (corr : CorrMatrix N) (θ : ℚ) (v : Fin N) : ℕ :=
  (reachSet (graphAdj corr θ) v).card

/-- `len(max(components, key=len))` over
`nx.connected_components(G_theta)`: every component is the component of one
of its members, so the largest component size is the maximum over nodes of
the size of that node's component. -/
def largestCompSize {N : ℕ} (corr : CorrMatrix N) (θ : ℚ) : ℕ :=
  Finset.univ.sup (compSize corr θ)

/-- `S` from the percolation sweep of `parameter.py`: `0` when the
component list is empty (no nodes at all), otherwise the largest component
size divided by `N`. -/
def S_val {N : ℕ} (corr : CorrMatrix N) (θ : ℚ) : ℚ :=
  if N = 0 then 0 else (largestCompSize corr θ : ℚ) / (N : ℚ)

lemma graphAdj_mono {N : ℕ} (corr : CorrMatrix N) {θ₁ θ₂ : ℚ}
    (h : θ₁ ≤ θ₂) :
    ∀ i j, graphAdj corr θ₂ i j = true → graphAdj corr θ₁ i j = true := by
  intro i j hij
  rw [graphAdj, buildGraph_adj_iff] at hij ⊢
  rcases hij with ⟨hlt, hc⟩ | ⟨hlt, hc⟩
  · exact Or.inl ⟨hlt, corrGe_mono h hc⟩
  · exact Or.inr ⟨hlt, corrGe_mono h hc⟩

lemma largestCompSize_antitone {N : ℕ} (corr : CorrMatrix N) {θ₁ θ₂ : ℚ}
    (h : θ₁ ≤ θ₂) :
    largestCompSize corr θ₂ ≤ largestCompSize corr θ₁ := by
  refine Finset.sup_mono_fun (fun v _ => ?_)
  exact Finset.card_le_card (reachSet_mono (graphAdj_mono corr h) v)

/-- **C4.** The largest-component fraction S of the percolation sweep is
non-increasing in the threshold: for θ₁ ≤ θ₂, `S(θ₂) ≤ S(θ₁)`. -/
theorem S_val_antitone {N : ℕ} (corr : CorrMatrix N) {θ₁ θ₂ : ℚ}
    (h : θ₁ ≤ θ₂) : S_val corr θ₂ ≤ S_val corr θ₁ := by
  rw [S_val, S_val]
  by_cases hN : N = 0
  · simp [hN]
  · simp only [hN, if_false]
    have hNpos : (0 : ℚ) < (N : ℚ) := by
      exact_mod_cast Nat.pos_of_ne_zero hN
    have hle : (largestCompSize corr θ₂ : ℚ) ≤ (largestCompSize corr θ₁ : ℚ) := by
      exact_mod_cast largestCompSize_antitone corr h
    exact div_le_div_of_nonneg_right hle hNpos.le

/-- Witness for C4: monotone S at concrete thresholds 0 ≤ 1 on `corr2`. -/
theorem S_val_antitone_witness :
    (0 : ℚ) ≤ 1 ∧ S_val corr2 1 ≤ S_val corr2 0 :=
  ⟨by decide, S_val_antitone corr2 (by decide)⟩

open Classical in
/-- Size of the connected component of `v` in the textbook sense: the number
of nodes reachable from `v` through edges (reflexive-transitive closure of
adjacency). -/
noncomputable def specCompSize {N : ℕ} (corr : CorrMatrix N) (θ : ℚ)
    (v : Fin N) : ℕ :=
  (Finset.univ.filter (fun u => GReach (graphAdj corr θ) v u)).card

/-- The size of the largest connected component, in the textbook sense. -/
noncomputable def specLargestCompSize {N : ℕ} (corr : CorrMatrix N)
    (θ : ℚ) : ℕ :=
  Finset.univ.sup (specCompSize corr θ)

lemma compSize_eq_specCompSize {N : ℕ} (corr : CorrMatrix N) (θ : ℚ)
    (v : Fin N) : compSize corr θ v = specCompSize corr θ v := by
  classical
  rw [compSize, specCompSize]
  congr 1
  ext u
  simp [mem_reachSet_iff]

/-- **C5.** The reported S of the percolation sweep equals the size of the
largest connected component divided by the number of symbols `N`, and equals
`0` when the graph is empty (no nodes). -/
theorem S_val_eq_component_fraction {N : ℕ} (corr : CorrMatrix N) (θ : ℚ) :
    S_val corr θ =
      if N = 0 then 0 else (specLargestCompSize corr θ : ℚ) / (N : ℚ) := by
  rw [S_val]
  by_cases hN : N = 0
  · simp [hN]
  · simp only [hN, if_false]
    congr 2
    rw [largestCompSize, specLargestCompSize]
    exact Finset.sup_congr rfl (fun v _ => compSize_eq_specCompSize corr θ v)

/-- **C9.** A pair whose correlation entry is NaN never receives an edge at
any threshold (the Python comparison `NaN >= θ` is false, even at θ = −1),
and a symbol whose whole row and column are NaN stays an isolated node of
the graph: degree 0 but still present in the node set. -/
theorem nan_entries_never_edges {N : ℕ} (corr : CorrMatrix N) (θ : ℚ) :
    (∀ i j, corr i j = none → corr j i = none →
      (buildGraph corr θ).adj i j = false) ∧
    (∀ i, (∀ j, corr i j = none) → (∀ j, corr j i = none) →
      (buildGraph corr θ).degree i = 0 ∧ i ∈ (buildGraph corr θ).nodes) := by
  have hadj : ∀ i j, corr i j = none → corr j i = none →
      (buildGraph corr θ).adj i j = false := by
    intro i j hij hji
    rw [← Bool.not_eq_true, buildGraph_adj_iff]
    rintro (⟨-, hc⟩ | ⟨-, hc⟩)
    · rw [hij] at hc
      simp [corrGe] at hc
    · rw [hji] at hc
      simp [corrGe] at hc
  refine ⟨hadj, fun i hrow hcol => ⟨?_, Finset.mem_univ i⟩⟩
  rw [FinGraph.degree, Finset.card_eq_zero, Finset.filter_eq_empty_iff]
  intro j _
  rw [hadj i j (hrow j) (hcol j)]
  simp

/-- A 2×2 matrix that is NaN everywhere (e.g. two zero-variance columns). -/
def corrNaN : CorrMatrix 2 := fun _ _ => none

/-- Witness for C9 at θ = −1: no edge on the NaN pair, and node 0 is
isolated but present. -/
theorem nan_entries_never_edges_witness :
    (buildGraph corrNaN (-1)).adj 0 1 = false ∧
    (buildGraph corrNaN (-1)).degree 0 = 0 ∧
    (0 : Fin 2) ∈ (buildGraph corrNaN (-1)).nodes :=
  ⟨(nan_entries_never_edges corrNaN (-1)).1 0 1 rfl rfl,
   ((nan_entries_never_edges corrNaN (-1)).2 0 (fun _ => rfl) (fun _ => rfl)).1,
   ((nan_entries_never_edges corrNaN (-1)).2 0 (fun _ => rfl) (fun _ => rfl)).2⟩

/-- The outcome of one linear script run: either it halted early (printing
a message and calling `exit()`), or it ran to completion producing its
in-memory result / written artifact. -/
inductive RunOutcome (γ : Type) where
  | halted (msg : String)
  | completed (result : γ)

/-- Whether a run reached its completed state (built its result and wrote
its artifact). -/
def RunOutcome.isCompleted {γ : Type} : RunOutcome γ → Bool
  | RunOutcome.halted _ => false
  | RunOutcome.completed _ => true

/-- The load-then-process skeleton shared by `network_construction.py` and
`parameter.py`: `try: prices_df = pd.read_csv(...)` followed by the rest of
the straight-line script, `except FileNotFoundError:` printing an error and
calling `exit()` before any processing. `loaded = none` models the absent
input file. -/
def loadThenProcess {α γ : Type} (analyze : α → γ) (loaded : Option α) :
    RunOutcome γ :=
  match loaded with
  | none => RunOutcome.halted "Error: File not found."
  | some df => RunOutcome.completed (analyze df)

/-- **C7.** With the price file absent, both scripts halt at once with a
clear message and perform no partial processing: the run never reaches a
completed state, so no graph is built and no artifact is produced — in
particular the construction script halts before `buildGraph` runs. -/
theorem missing_input_fails_fast :
    (∀ (α γ : Type) (analyze : α → γ),
      loadThenProcess analyze (none : Option α) =
        RunOutcome.halted "Error: File not found.") ∧
    (∀ (α γ : Type) (analyze : α → γ),
      RunOutcome.isCompleted (loadThenProcess analyze (none : Option α)) =
        false) ∧
    (∀ N : ℕ, ∀ θ : ℚ,
      loadThenProcess (fun corr : CorrMatrix N => buildGraph corr θ) none =
        RunOutcome.halted "Error: File not found.") :=
  ⟨fun _ _ _ => rfl, fun _ _ _ => rfl, fun _ _ => rfl⟩

/-- A downloaded price series: a symbol name with its column of optional
(possibly missing) prices. -/
abbrev PriceSeries := String × List (Option ℚ)

/-- The fetch stage of `data_fetch.py`: on success the downloaded symbol
list with the ".NS" suffix appended; on a `RequestException` the handler
sets `symbols_ns = []` and the script continues. -/
def fetchSymbols (response : Option (List String)) : List String :=
  match response with
  | some symbols => symbols.map (fun s => s ++ ".NS")
  | none => []

/-- The per-symbol download loop: keep the series of every symbol whose
download succeeds and is nonempty, skip the rest. -/
def downloadAll (dl : String → Option (List (Option ℚ)))
    (symbols : List String) : List PriceSeries :=
  symbols.filterMap (fun s =>
    match dl s with
    | none => none
    | some d => if d.isEmpty then none else some (s, d))

/-- `dropna(axis=1)`: keep only the columns with no missing value. -/
def cleanColumns (cols : List PriceSeries) : List PriceSeries :=
  cols.filter (fun c => c.2.all (fun x => x.isSome))

/-- The whole `data_fetch.py` flow after the fetch: `if symbols_ns:` guards
the download loop, `if all_price_data:` guards the save; the result is the
content of the written CSV, or `none` when nothing was written. -/
def data_fetch_main (response : Option (List String))
    (dl : String → Option (List (Option ℚ))) : Option (List PriceSeries) :=
  let symbols_ns := fetchSymbols response
  if symbols_ns.isEmpty then none
  else
    let all_price_data := downloadAll dl symbols_ns
    if all_price_data.isEmpty then none
    else some (cleanColumns all_price_data)

/-- **C8.** When the symbol-list fetch fails, the fetch stage continues with
an empty symbol set; the downstream stages then produce empty outputs — an
empty download list and no written CSV — and the run terminates normally
instead of raising. -/
theorem fetch_failure_degrades_silently :
    fetchSymbols none = [] ∧
    (∀ dl, downloadAll dl (fetchSymbols none) = []) ∧
    (∀ dl, data_fetch_main none dl = none) :=
  ⟨rfl, fun _ => rfl, fun _ => rfl⟩

/-- Mean of a finite real-valued series. -/
noncomputable def seriesMean (n : ℕ) (x : Fin n → ℝ) : ℝ := (∑ i, x i) / n

/-- Sum of products of deviations from the mean (the normalisation factor
of covariance cancels in the Pearson quotient, so it is omitted). -/
noncomputable def sxy (n : ℕ) (x y : Fin n → ℝ) : ℝ :=
  ∑ i, (x i - seriesMean n x) * (y i - seriesMean n y)

/-- The Pearson correlation coefficient of two series, the formula behind
`DataFrame.corr(method='pearson')` in exact real arithmetic. -/
noncomputable def pearson (n : ℕ) (x y : Fin n → ℝ) : ℝ :=
  sxy n x y / (Real.sqrt (sxy n x x) * Real.sqrt (sxy n y y))

/-- Log-returns of a price table: entry (t, i) is
`ln(price (t+1) i / price t i)` — the `np.log(prices / prices.shift(1))`
rows that survive `dropna()`. -/
noncomputable def logReturns (T N : ℕ) (price : Fin (T + 1) → Fin N → ℝ) :
    Fin T → Fin N → ℝ :=
  fun t i => Real.log (price t.succ i / price t.castSucc i)

/-- The symbol×symbol correlation matrix of a returns table `r`
(`r t i` = return of symbol `i` on date `t`, e.g. the log-returns): entry
`(i, j)` is the Pearson correlation of columns `i` and `j`. -/
noncomputable def corrMatrixOf (T N : ℕ) (r : Fin T → Fin N → ℝ) :
    Fin N → Fin N → ℝ :=
  fun i j => pearson T (fun t => r t i) (fun t => r t j)

lemma sxy_comm (n : ℕ) (x y : Fin n → ℝ) : sxy n x y = sxy n y x := by
  rw [sxy, sxy]
  exact Finset.sum_congr rfl (fun i _ => mul_comm _ _)

lemma sxy_self_nonneg (n : ℕ) (x : Fin n → ℝ) : 0 ≤ sxy n x x :=
  Finset.sum_nonneg (fun _ _ => mul_self_nonneg _)

lemma sxy_sq_le (n : ℕ) (x y : Fin n → ℝ) :
    sxy n x y ^ 2 ≤ sxy n x x * sxy n y y := by
  have h := Finset.sum_mul_sq_le_sq_mul_sq Finset.univ
    (fun i => x i - seriesMean n x) (fun i => y i - seriesMean n y)
  rw [sxy, sxy, sxy]
  calc (∑ i, (x i - seriesMean n x) * (y i - seriesMean n y)) ^ 2
      ≤ (∑ i, (x i - seriesMean n x) ^ 2) * ∑ i, (y i - seriesMean n y) ^ 2 := h
    _ = (∑ i, (x i - seriesMean n x) * (x i - seriesMean n x)) *
        ∑ i, (y i - seriesMean n y) * (y i - seriesMean n y) := by
        simp [sq]

/-- **C6.** The correlation matrix of a non-degenerate returns table (every
column of the log-return matrix has positive squared deviation, i.e.
nonzero variance) is symmetric, has exactly 1 on the diagonal, and all its
entries lie in [−1, 1]. -/
theorem corrMatrix_props (T N : ℕ) (r : Fin T → Fin N → ℝ)
    (hvar : ∀ i, 0 < sxy T (fun t => r t i) (fun t => r t i)) :
    (∀ i j, corrMatrixOf T N r i j = corrMatrixOf T N r j i) ∧
    (∀ i, corrMatrixOf T N r i i = 1) ∧
    (∀ i j, -1 ≤ corrMatrixOf T N r i j ∧ corrMatrixOf T N r i j ≤ 1) := by
  refine ⟨?_, ?_, ?_⟩
  · intro i j
    rw [corrMatrixOf, corrMatrixOf, pearson, pearson,
      sxy_comm T (fun t => r t i) (fun t => r t j), mul_comm]
  · intro i
    rw [corrMatrixOf, pearson,
      Real.mul_self_sqrt (sxy_self_nonneg T (fun t => r t i))]
    exact div_self (ne_of_gt (hvar i))
  · intro i j
    set x : Fin T → ℝ := fun t => r t i with hx
    set y : Fin T → ℝ := fun t => r t j with hy
    have hxx : 0 < sxy T x x := hvar i
    have hyy : 0 < sxy T y y := hvar j
    have hden : 0 < Real.sqrt (sxy T x x) * Real.sqrt (sxy T y y) :=
      mul_pos (Real.sqrt_pos.mpr hxx) (Real.sqrt_pos.mpr hyy)
    have habs : |sxy T x y| ≤ Real.sqrt (sxy T x x) * Real.sqrt (sxy T y y) := by
      have h1 : |sxy T x y| = Real.sqrt (sxy T x y ^ 2) :=
        (Real.sqrt_sq_eq_abs _).symm
      rw [h1, ← Real.sqrt_mul hxx.le]
      exact Real.sqrt_le_sqrt (sxy_sq_le T x y)
    have hone : |corrMatrixOf T N r i j| ≤ 1 := by
      rw [corrMatrixOf, pearson, abs_div, abs_of_pos hden]
      exact (div_le_one hden).mpr habs
    exact abs_le.mp hone

/-- A concrete 2-date, 1-symbol log-return table with nonzero variance. -/
noncomputable def rWit : Fin 2 → Fin 1 → ℝ := fun t _ => ((t : ℕ) : ℝ)

/-- Witness for C6: the correlation-matrix properties at a concrete
non-degenerate returns table. -/
theorem corrMatrix_props_witness :
    (∀ i : Fin 1, 0 < sxy 2 (fun t => rWit t i) (fun t => rWit t i)) ∧
    ((∀ i j, corrMatrixOf 2 1 rWit i j = corrMatrixOf 2 1 rWit j i) ∧
     (∀ i, corrMatrixOf 2 1 rWit i i = 1) ∧
     (∀ i j, -1 ≤ corrMatrixOf 2 1 rWit i j ∧ corrMatrixOf 2 1 rWit i j ≤ 1)) := by
  have hv : ∀ i : Fin 1, 0 < sxy 2 (fun t => rWit t i) (fun t => rWit t i) := by
    intro i
    rw [sxy, Fin.sum_univ_two, seriesMean, Fin.sum_univ_two]
    norm_num [rWit]
  exact ⟨hv, corrMatrix_props 2 1 rWit hv⟩

end StockNet
